import Mathlib

/-!
Shallow embedding of the tag synchronization engine of `mkrole`
(`src/main.rs`).  Strings are modelled as `List Char`; the remote
directory service (guild roles and members) is modelled as an explicit
state record, and each remote mutation of the source becomes a pure
state transformer.  The only failure modelled is the corrupt-state
error raised in `CharKind::clear` (`serenity::Error::Other("corrupt
role instance")`); fallible phases return their final state together
with an optional error, so that mutations performed before a failure
remain visible (the source never rolls anything back).
-/

/-- Strings of the source are modelled as lists of characters. -/
abbrev Str := List Char

/-- `pfxOf p s` holds when `p` is an initial segment of `s`
(used to build the substring and suffix tests of the source). -/
def pfxOf : Str → Str → Bool
  | [], _ => true
  | _ :: _, [] => false
  | p :: ps, c :: s => p == c && pfxOf ps s

/-- Rust `str::ends_with`: `suf` is a final segment of `s`. -/
def endsWithL (s suf : Str) : Bool :=
  pfxOf suf.reverse s.reverse

/-- Rust `str::contains` with a string pattern: `pat` occurs as a
contiguous substring of `s`. -/
def hasSub : Str → Str → Bool
  | [], pat => pat.isEmpty
  | c :: rest, pat => pfxOf pat (c :: rest) || hasSub rest pat

/-- Rust `str::trim` (whitespace stripped from both ends; the inputs
involved in the claims only use ASCII spaces). -/
def trimStr (s : Str) : Str :=
  ((s.dropWhile Char.isWhitespace).reverse.dropWhile Char.isWhitespace).reverse

/-- Rust `text.split(',')`: split at every comma, keeping empty pieces;
the empty string yields one empty piece. -/
def splitOnComma : Str → List Str
  | [] => [[]]
  | c :: rest =>
    let r := splitOnComma rest
    if c = ',' then [] :: r
    else (c :: r.headD []) :: r.tail

/-- The loop body of `capitalize_words` in `Characters::parse`: the
running `previous` character starts as `' '`; a character is uppercased
when the previous (already transformed) character is a space and
lowercased otherwise, and then becomes the new `previous`.
`Char.toUpper`/`Char.toLower` only move ASCII letters, exactly like
Rust's `make_ascii_uppercase`/`make_ascii_lowercase`. -/
def capitalizeGo : Char → Str → Str
  | _, [] => []
  | previous, c :: rest =>
    let c' := if previous = ' ' then c.toUpper else c.toLower
    c' :: capitalizeGo c' rest

/-- `capitalize_words` of `Characters::parse`. -/
def capitalizeWords (s : Str) : Str :=
  capitalizeGo ' ' s

/-- `identify_character` of the source: the alias rule list, checked in
order, first match wins (Rust early `return`s become an `if` chain). -/
def identify_character (c : Str) : Option Str :=
  if hasSub c "Game".toList || hasSub c "Watch".toList then
    some "Game & Watch".toList
  else if hasSub c "Banjo".toList || hasSub c "Kazooie".toList then
    some "Game & Watch".toList
  else if hasSub c "Rosalina".toList then
    some "Rosalina & Luma".toList
  else if (hasSub c "Pyra".toList && hasSub c "Mythra".toList)
      || hasSub c "Aegis".toList then
    some "Aegis".toList
  else if c == "G&w".toList || c == "G & W".toList then
    some "Game & Watch".toList
  else if c == "Dk".toList then
    some "Donkey Kong".toList
  else
    none

/-- `find_alias` of the source: fall back to the token itself when no
rule matches. -/
def find_alias (c : Str) : Str :=
  (identify_character c).getD c

/-- `Characters::parse`: split on commas, trim, drop pieces of length
`≤ 1`, capitalize, resolve aliases.  Kept in the source's iterator
order. -/
def parse (text : Str) : List Str :=
  ((((splitOnComma text).map trimStr).filter
    (fun s => 1 < s.length)).map capitalizeWords).map find_alias

/-- The category selector (`CharKind` in the source). -/
inductive CharKind
  | Main
  | Secondary
deriving DecidableEq

/-- Category naming suffix (the source method is named after the word
for a trailing affix, which cannot be used as a Lean name here). -/
def CharKind.pfix : CharKind → Str
  | .Main => " main".toList
  | .Secondary => " secondary".toList

/-- `CharKind::colour`. -/
def CharKind.colour : CharKind → Nat
  | .Main => 15844367
  | .Secondary => 12745742

/-- A guild role as known to the directory service (`serenity` `Role`;
only the fields the engine reads). -/
structure RoleR where
  id : Nat
  name : Str
  colour : Nat
deriving DecidableEq

/-- A guild member (`serenity` `Member`): user id and held role ids. -/
structure MemberR where
  userId : Nat
  roles : List Nat
deriving DecidableEq

/-- The remote directory state: the guild's role table, its member
list, and a counter supplying fresh role ids for `create_role`. -/
structure GuildState where
  roles : List RoleR
  members : List MemberR
  nextId : Nat
deriving DecidableEq

/-- The only modelled failure: `serenity::Error::Other("corrupt role
instance")` raised in `CharKind::clear`. -/
inductive Err
  | corruptState
deriving DecidableEq

/-- `roles.get(&role_id)` on the fetched role table (a `HashMap` keyed
by id in the source, hence ids are unique there; modelled as first
match in a list). -/
def getRole (table : List RoleR) (rid : Nat) : Option RoleR :=
  table.find? (fun r => r.id == rid)

/-- `is_character_role`: the role's display name ends with the
category's suffix. -/
def is_character_role (role : RoleR) (kind : CharKind) : Bool :=
  endsWithL role.name kind.pfix

/-- `is_role_empty`: no member other than the invoker holds the role
(judged on the given member-list snapshot). -/
def is_role_empty (members : List MemberR) (selfId : Nat) (rid : Nat) : Bool :=
  members.all (fun m => m.userId == selfId || !(m.roles.contains rid))

/-- Remote `Member::remove_role`: remove `rid` from the member `uid`. -/
def removeMemberRole (st : GuildState) (uid rid : Nat) : GuildState :=
  { st with members := st.members.map (fun m =>
      if m.userId == uid then
        { m with roles := m.roles.filter (fun x => !(x == rid)) }
      else m) }

/-- Remote `GuildId::delete_role`: the role disappears from the guild
and from every holder's role list. -/
def deleteRole (st : GuildState) (rid : Nat) : GuildState :=
  { st with
    roles := st.roles.filter (fun r => !(r.id == rid)),
    members := st.members.map (fun m =>
      { m with roles := m.roles.filter (fun x => !(x == rid)) }) }

/-- Remote `Member::add_role`: directory role sets are idempotent under
addition, so a role already held is not duplicated. -/
def addMemberRole (st : GuildState) (uid rid : Nat) : GuildState :=
  { st with members := st.members.map (fun m =>
      if m.userId == uid then
        { m with roles := if m.roles.contains rid then m.roles
                          else m.roles ++ [rid] }
      else m) }

/-- Remote `GuildId::create_role` (the source wrapper is `new_role`):
append a fresh role with the requested name and colour, returning its
id. -/
def createRole (st : GuildState) (name : Str) (col : Nat) : GuildState × Nat :=
  ({ st with
      roles := st.roles ++ [⟨st.nextId, name, col⟩],
      nextId := st.nextId + 1 },
    st.nextId)

/-- The role list of the member `uid` as the directory currently
records it (the `member.roles` payload the handler receives). -/
def lookupRoles (ms : List MemberR) (uid : Nat) : List Nat :=
  match ms.find? (fun m => m.userId == uid) with
  | none => []
  | some m => m.roles

/-- Current role list of member `uid` in state `st`. -/
def memberRoles (st : GuildState) (uid : Nat) : List Nat :=
  lookupRoles st.members uid

/-- The display name `assign_characters` builds for a tag:
`format!("{char_name} {}", postfix)` — the tag, a space, then the
category suffix (which itself begins with a space). -/
def roleNameFor (t sfx : Str) : Str :=
  t ++ (' ' :: sfx)

/-- The loop of `CharKind::clear`, iterating the member's role-id
snapshot.  `table` and `snap` are the role table and member list
fetched once before the loop; lookups that miss abort with the
corrupt-state error, returning the state reached so far. -/
def clearLoop (sfx : Str) (uid : Nat) (table : List RoleR)
    (snap : List MemberR) : List Nat → GuildState → GuildState × Option Err
  | [], st => (st, none)
  | rid :: rest, st =>
    match getRole table rid with
    | none => (st, some Err.corruptState)
    | some role =>
      if endsWithL role.name sfx then
        let st1 := removeMemberRole st uid rid
        let st2 := if is_role_empty snap uid rid then deleteRole st1 rid else st1
        clearLoop sfx uid table snap rest st2
      else
        clearLoop sfx uid table snap rest st

/-- `CharKind::clear`, specialised to a suffix: fetch the member list
and role table, then run the loop over the invoker's current roles. -/
def clearCore (sfx : Str) (uid : Nat) (st : GuildState) : GuildState × Option Err :=
  clearLoop sfx uid st.roles st.members (memberRoles st uid) st

/-- One successful iteration of the clear loop as a pure state
transformer (used to reason about runs that are known to succeed). -/
def clearStep (sfx : Str) (uid : Nat) (table : List RoleR)
    (snap : List MemberR) (st : GuildState) (rid : Nat) : GuildState :=
  match getRole table rid with
  | none => st
  | some role =>
    if endsWithL role.name sfx then
      let st1 := removeMemberRole st uid rid
      if is_role_empty snap uid rid then deleteRole st1 rid else st1
    else st

/-- Folding `clearStep` over the member's role-id snapshot. -/
def applyClear (sfx : Str) (uid : Nat) (table : List RoleR)
    (snap : List MemberR) : List Nat → GuildState → GuildState
  | [], st => st
  | rid :: rest, st =>
    applyClear sfx uid table snap rest (clearStep sfx uid table snap st rid)

/-- The loop of `CharKind::assign_characters`.  `table` is the role
list fetched once before the loop (so roles created inside the loop are
not visible to later `find` calls, exactly as in the source). -/
def assignLoop (sfx : Str) (col : Nat) (uid : Nat) (table : List RoleR) :
    List Str → GuildState → GuildState
  | [], st => st
  | t :: rest, st =>
    match table.find? (fun r => r.name == roleNameFor t sfx) with
    | some r => assignLoop sfx col uid table rest (addMemberRole st uid r.id)
    | none =>
      let p := createRole st (roleNameFor t sfx) col
      assignLoop sfx col uid table rest (addMemberRole p.1 uid p.2)

/-- `CharKind::assign_characters`, specialised to a suffix and colour:
re-fetch the role list, then add (creating on demand) a role per tag. -/
def assignCore (sfx : Str) (col : Nat) (uid : Nat) (chars : List Str)
    (st : GuildState) : GuildState :=
  assignLoop sfx col uid st.roles chars st

/-- `handler_for_kind` with the category policy already applied:
clear, and only if clearing succeeded, assign. -/
def handlerCore (sfx : Str) (col : Nat) (uid : Nat) (chars : List Str)
    (st : GuildState) : GuildState × Option Err :=
  match clearCore sfx uid st with
  | (st1, some e) => (st1, some e)
  | (st1, none) => (assignCore sfx col uid chars st1, none)

/-- `CharKind::clear`. -/
def CharKind.clear (kind : CharKind) (uid : Nat) (st : GuildState) :
    GuildState × Option Err :=
  clearCore kind.pfix uid st

/-- `CharKind::assign_characters`. -/
def CharKind.assign_characters (kind : CharKind) (uid : Nat)
    (chars : List Str) (st : GuildState) : GuildState :=
  assignCore kind.pfix kind.colour uid chars st

/-- `handler_for_kind`: full synchronization for one invocation. -/
def handler_for_kind (kind : CharKind) (uid : Nat) (chars : List Str)
    (st : GuildState) : GuildState × Option Err :=
  handlerCore kind.pfix kind.colour uid chars st

/-- The display names of the category-`sfx` tag-roles the member `uid`
currently holds: resolve each held role id in the role table and keep
the names ending in `sfx`. -/
def heldTagNames (sfx : Str) (st : GuildState) (uid : Nat) : List Str :=
  (memberRoles st uid).filterMap (fun rid =>
    match getRole st.roles rid with
    | none => none
    | some r => if endsWithL r.name sfx then some r.name else none)

/-! ### Basic string lemmas -/

theorem pfxOf_append_self (p r : Str) : pfxOf p (p ++ r) = true := by
  induction p with
  | nil => rfl
  | cons c ps ih => simp [pfxOf, ih]

theorem endsWithL_append (a b : Str) : endsWithL (a ++ b) b = true := by
  unfold endsWithL
  rw [List.reverse_append]
  exact pfxOf_append_self _ _

theorem endsWithL_roleNameFor (t sfx : Str) :
    endsWithL (roleNameFor t sfx) sfx = true := by
  have h : roleNameFor t sfx = (t ++ [' ']) ++ sfx := by
    simp [roleNameFor]
  rw [h]
  exact endsWithL_append _ _

theorem roleNameFor_inj {t1 t2 sfx : Str}
    (h : roleNameFor t1 sfx = roleNameFor t2 sfx) : t1 = t2 :=
  List.append_cancel_right h

theorem ne_roleNameFor_of_not_ends {x sfx : Str}
    (h : endsWithL x sfx = false) (t : Str) : x ≠ roleNameFor t sfx := by
  intro he
  rw [he, endsWithL_roleNameFor] at h
  cases h

theorem pfxOf_head_ne {a b : Char} (as bs t : Str) (hne : a ≠ b) :
    pfxOf (a :: as) ((b :: bs) ++ t) = false := by
  simp [pfxOf, hne]

theorem main_not_ends_secondary (t : Str) :
    endsWithL (roleNameFor t (CharKind.pfix CharKind.Main))
      (CharKind.pfix CharKind.Secondary) = false := by
  have h : endsWithL (roleNameFor t (CharKind.pfix CharKind.Main))
      (CharKind.pfix CharKind.Secondary)
      = pfxOf ('y' :: "radnoces ".toList)
          (('n' :: "iam  ".toList) ++ t.reverse) := by
    unfold endsWithL roleNameFor
    rw [List.reverse_append]
    rfl
  rw [h]
  exact pfxOf_head_ne _ _ _ (by decide)

theorem secondary_not_ends_main (t : Str) :
    endsWithL (roleNameFor t (CharKind.pfix CharKind.Secondary))
      (CharKind.pfix CharKind.Main) = false := by
  have h : endsWithL (roleNameFor t (CharKind.pfix CharKind.Secondary))
      (CharKind.pfix CharKind.Main)
      = pfxOf ('n' :: "iam ".toList)
          (('y' :: "radnoces  ".toList) ++ t.reverse) := by
    unfold endsWithL roleNameFor
    rw [List.reverse_append]
    rfl
  rw [h]
  exact pfxOf_head_ne _ _ _ (by decide)

/-! ### The alias rule list as the spec words it (for claim C4) -/

/-- Written from the spec's rule list (fixed priority, first match
wins), to be compared with `find_alias`. -/
def resolveSpec (token : Str) : Str :=
  if hasSub token "Game".toList || hasSub token "Watch".toList then
    "Game & Watch".toList
  else if hasSub token "Banjo".toList || hasSub token "Kazooie".toList then
    "Game & Watch".toList
  else if hasSub token "Rosalina".toList then
    "Rosalina & Luma".toList
  else if (hasSub token "Pyra".toList && hasSub token "Mythra".toList)
      || hasSub token "Aegis".toList then
    "Aegis".toList
  else if token == "G&w".toList || token == "G & W".toList then
    "Game & Watch".toList
  else if token == "Dk".toList then
    "Donkey Kong".toList
  else
    token

/-- C4: the alias resolver equals the fixed-priority first-match-wins
rule list of the spec; it is total, returns a non-empty string on every
non-empty input, and resolves "Banjo" to "Game & Watch", "Dk" to
"Donkey Kong" and "G&w" to "Game & Watch". -/
theorem claim_C4 :
    (∀ s : Str, find_alias s = resolveSpec s) ∧
    (∀ s : Str, s ≠ [] → find_alias s ≠ []) ∧
    find_alias "Banjo".toList = "Game & Watch".toList ∧
    find_alias "Dk".toList = "Donkey Kong".toList ∧
    find_alias "G&w".toList = "Game & Watch".toList := by
  have heq : ∀ s : Str, find_alias s = resolveSpec s := by
    intro s
    unfold find_alias identify_character resolveSpec
    split_ifs <;> rfl
  refine ⟨heq, ?_, by decide, by decide, by decide⟩
  intro s hs
  rw [heq]
  unfold resolveSpec
  split_ifs <;> first | exact hs | decide

/-- Witness for C4's non-emptiness hypothesis at a concrete input. -/
theorem claim_C4_witness :
    ("Banjo".toList ≠ ([] : Str)) ∧ find_alias "Banjo".toList ≠ [] :=
  ⟨by decide, claim_C4.2.1 "Banjo".toList (by decide)⟩

/-- C3 counterexample: `parse` does not deduplicate; on
"Mario, Luigi, mario" it returns three entries, not the claimed two. -/
theorem claim_C3_cex :
    parse "Mario, Luigi, mario".toList
      = ["Mario".toList, "Luigi".toList, "Mario".toList] ∧
    parse "Mario, Luigi, mario".toList
      ≠ ["Mario".toList, "Luigi".toList] := by
  constructor <;> decide

/-- C3 (amended): `parse` keeps pieces in input order and does NOT
deduplicate — every piece surviving the length filter contributes one
entry, so a tag name may occur several times;
`parse "Mario, Luigi, mario"` yields Mario, Luigi, Mario. -/
theorem claim_C3_amended :
    parse "Mario, Luigi, mario".toList
      = ["Mario".toList, "Luigi".toList, "Mario".toList] ∧
    (∀ text : Str, (parse text).length
      = (((splitOnComma text).map trimStr).filter
          (fun s => 1 < s.length)).length) := by
  refine ⟨by decide, ?_⟩
  intro text
  unfold parse
  simp

/-- C5: `parse` is exactly the pipeline split-on-comma, trim, discard
length ≤ 1, capitalize (space as sole word boundary), alias-resolve;
the empty input yields the empty tag set and "MARIO" yields "Mario". -/
theorem claim_C5 :
    parse "".toList = [] ∧
    parse "MARIO".toList = ["Mario".toList] ∧
    parse "mario luigi".toList = ["Mario Luigi".toList] ∧
    (∀ text : Str, parse text
      = (((splitOnComma text).map trimStr).filter
          (fun s => 1 < s.length)).map
            (fun p => find_alias (capitalizeWords p))) := by
  refine ⟨by decide, by decide, by decide, ?_⟩
  intro text
  unfold parse
  rw [List.map_map]
  rfl

/-- C9: the category policy is a pure lookup (Primary: suffix " main",
colour 15844367; Secondary: suffix " secondary", colour 12745742), and
the engine touches category identity only through this policy and the
suffix-matching predicate: the handler factors through the
policy-applied core, and the predicate is exactly the suffix test. -/
theorem claim_C9 :
    CharKind.pfix CharKind.Main = " main".toList ∧
    CharKind.colour CharKind.Main = 15844367 ∧
    CharKind.pfix CharKind.Secondary = " secondary".toList ∧
    CharKind.colour CharKind.Secondary = 12745742 ∧
    (∀ (k : CharKind) (uid : Nat) (chars : List Str) (st : GuildState),
      handler_for_kind k uid chars st = handlerCore k.pfix k.colour uid chars st) ∧
    (∀ (k : CharKind) (r : RoleR),
      is_character_role r k = endsWithL r.name k.pfix) :=
  ⟨rfl, rfl, rfl, rfl, fun _ _ _ _ => rfl, fun _ _ => rfl⟩

/-- C10: every role name the Assigning phase constructs (tag, space,
category suffix — the suffix itself starting with a space) is matched
by `is_character_role` for its own category and never by the other
category's predicate. -/
theorem claim_C10 :
    (∀ (t : Str) (k : CharKind) (i c : Nat),
      is_character_role ⟨i, roleNameFor t k.pfix, c⟩ k = true) ∧
    (∀ (t : Str) (i c : Nat),
      is_character_role ⟨i, roleNameFor t (CharKind.pfix CharKind.Main), c⟩
        CharKind.Secondary = false) ∧
    (∀ (t : Str) (i c : Nat),
      is_character_role ⟨i, roleNameFor t (CharKind.pfix CharKind.Secondary), c⟩
        CharKind.Main = false) := by
  refine ⟨fun t k i c => ?_, fun t i c => ?_, fun t i c => ?_⟩
  · exact endsWithL_roleNameFor t k.pfix
  · exact main_not_ends_secondary t
  · exact secondary_not_ends_main t

/-- C2 counterexample: the Assigning phase searches for the tag
followed by a space and then the suffix — "Mario  main" with two
spaces, not the claimed "Mario main"; a guild role named exactly
"Mario main" is therefore not reused, and a fresh "Mario  main" role
is created instead. -/
theorem claim_C2_cex :
    roleNameFor "Mario".toList (CharKind.pfix CharKind.Main)
      = "Mario  main".toList ∧
    roleNameFor "Mario".toList (CharKind.pfix CharKind.Main)
      ≠ "Mario main".toList ∧
    (CharKind.assign_characters CharKind.Main 7 ["Mario".toList]
        ⟨[⟨1, "Mario main".toList, 15844367⟩], [⟨7, []⟩], 2⟩).roles
      = [⟨1, "Mario main".toList, 15844367⟩,
         ⟨2, "Mario  main".toList, 15844367⟩] := by
  refine ⟨by decide, by decide, by decide⟩

/-- C2 (amended): for every tag `t`, the Assigning phase searches the
fetched role list for an exact name match of `t`, a space, then C's
suffix (e.g. "Mario  main" — the suffix itself begins with a space);
if found, that role is added to the member, otherwise a role with
exactly that name and C's colour is created and added. -/
theorem claim_C2_amended (k : CharKind) (uid : Nat) (t : Str) (st : GuildState) :
    (∀ r, st.roles.find? (fun x => x.name == roleNameFor t k.pfix) = some r →
      CharKind.assign_characters k uid [t] st = addMemberRole st uid r.id) ∧
    (st.roles.find? (fun x => x.name == roleNameFor t k.pfix) = none →
      CharKind.assign_characters k uid [t] st =
        addMemberRole
          { st with
              roles := st.roles ++ [⟨st.nextId, roleNameFor t k.pfix, k.colour⟩],
              nextId := st.nextId + 1 }
          uid st.nextId) := by
  constructor
  · intro r h
    unfold CharKind.assign_characters assignCore assignLoop
    rw [h]
    rfl
  · intro h
    unfold CharKind.assign_characters assignCore assignLoop
    rw [h]
    rfl

/-- Concrete state for the C2 witness: the guild already holds the
(double-space) role "Mario  main". -/
def c2WitnessSt : GuildState :=
  ⟨[⟨1, "Mario  main".toList, 15844367⟩], [⟨7, []⟩], 2⟩

/-- Witness for the amended C2 at a concrete state (found branch). -/
theorem claim_C2_amended_witness :
    (c2WitnessSt.roles.find?
        (fun x => x.name == roleNameFor "Mario".toList (CharKind.pfix CharKind.Main))
      = some ⟨1, "Mario  main".toList, 15844367⟩) ∧
    CharKind.assign_characters CharKind.Main 7 ["Mario".toList] c2WitnessSt
      = addMemberRole c2WitnessSt 7 1 :=
  ⟨by decide,
    (claim_C2_amended CharKind.Main 7 "Mario".toList c2WitnessSt).1
      ⟨1, "Mario  main".toList, 15844367⟩ (by decide)⟩

/-! ### Effects of the directory operations on state components -/

theorem removeMemberRole_roles (st : GuildState) (uid rid : Nat) :
    (removeMemberRole st uid rid).roles = st.roles := rfl

theorem removeMemberRole_nextId (st : GuildState) (uid rid : Nat) :
    (removeMemberRole st uid rid).nextId = st.nextId := rfl

theorem deleteRole_roles (st : GuildState) (rid : Nat) :
    (deleteRole st rid).roles = st.roles.filter (fun r => !(r.id == rid)) := rfl

theorem deleteRole_nextId (st : GuildState) (rid : Nat) :
    (deleteRole st rid).nextId = st.nextId := rfl

theorem addMemberRole_roles (st : GuildState) (uid rid : Nat) :
    (addMemberRole st uid rid).roles = st.roles := rfl

theorem addMemberRole_nextId (st : GuildState) (uid rid : Nat) :
    (addMemberRole st uid rid).nextId = st.nextId := rfl

theorem find?_userId_map (g : MemberR → MemberR)
    (hg : ∀ m, (g m).userId = m.userId) (ms : List MemberR) (v : Nat) :
    (ms.map g).find? (fun m => m.userId == v)
      = (ms.find? (fun m => m.userId == v)).map g := by
  rw [List.find?_map]
  have h : ((fun m => m.userId == v) ∘ g) = (fun m : MemberR => m.userId == v) := by
    funext m
    simp [Function.comp, hg]
  rw [h]

theorem lookupRoles_map (g : MemberR → MemberR)
    (hg : ∀ m, (g m).userId = m.userId) (ms : List MemberR) (v : Nat) :
    lookupRoles (ms.map g) v
      = match ms.find? (fun m => m.userId == v) with
        | none => []
        | some m => (g m).roles := by
  unfold lookupRoles
  rw [find?_userId_map g hg]
  cases ms.find? (fun m => m.userId == v) <;> rfl

theorem memberRoles_removeMemberRole (st : GuildState) (uid rid v : Nat) :
    memberRoles (removeMemberRole st uid rid) v
      = if v = uid then (memberRoles st v).filter (fun x => !(x == rid))
        else memberRoles st v := by
  unfold memberRoles removeMemberRole
  dsimp only
  rw [lookupRoles_map _ (fun m => by by_cases h : (m.userId == uid) <;> simp [h])]
  cases hf : st.members.find? (fun m => m.userId == v) with
  | none => simp [lookupRoles, hf]
  | some m =>
    have hmv : m.userId = v := by simpa using List.find?_some hf
    by_cases hvu : v = uid
    · subst hvu
      simp [lookupRoles, hf, hmv]
    · simp [lookupRoles, hf, hmv, hvu]

theorem memberRoles_deleteRole (st : GuildState) (rid v : Nat) :
    memberRoles (deleteRole st rid) v
      = (memberRoles st v).filter (fun x => !(x == rid)) := by
  unfold memberRoles deleteRole
  dsimp only
  rw [lookupRoles_map
    (fun m => { m with roles := m.roles.filter (fun x => !(x == rid)) })
    (fun m => rfl)]
  cases hf : st.members.find? (fun m => m.userId == v) <;>
    simp [lookupRoles, hf]

theorem memberRoles_addMemberRole_other (st : GuildState) (uid rid v : Nat)
    (hv : v ≠ uid) :
    memberRoles (addMemberRole st uid rid) v = memberRoles st v := by
  unfold memberRoles addMemberRole
  dsimp only
  rw [lookupRoles_map _ (fun m => by by_cases h : (m.userId == uid) <;> simp [h])]
  cases hf : st.members.find? (fun m => m.userId == v) with
  | none => simp [lookupRoles, hf]
  | some m =>
    have hmv : m.userId = v := by simpa using List.find?_some hf
    simp [lookupRoles, hf, hmv, hv]

theorem memberRoles_addMemberRole_self (st : GuildState) (uid rid : Nat)
    (hE : (st.members.find? (fun m => m.userId == uid)).isSome = true) :
    memberRoles (addMemberRole st uid rid) uid
      = if (memberRoles st uid).contains rid then memberRoles st uid
        else memberRoles st uid ++ [rid] := by
  unfold memberRoles addMemberRole
  dsimp only
  rw [lookupRoles_map _ (fun m => by by_cases h : (m.userId == uid) <;> simp [h])]
  cases hf : st.members.find? (fun m => m.userId == uid) with
  | none => rw [hf] at hE; cases hE
  | some m =>
    have hmv : m.userId = uid := by simpa using List.find?_some hf
    simp [lookupRoles, hf, hmv]

/-! ### Properties of the clearing loop -/

theorem clearStep_nextId (sfx : Str) (uid : Nat) (table : List RoleR)
    (snap : List MemberR) (st : GuildState) (rid : Nat) :
    (clearStep sfx uid table snap st rid).nextId = st.nextId := by
  unfold clearStep
  cases hg : getRole table rid with
  | none => rfl
  | some role =>
    dsimp only
    split
    · split <;> rfl
    · rfl

theorem clearStep_roles_sublist (sfx : Str) (uid : Nat) (table : List RoleR)
    (snap : List MemberR) (st : GuildState) (rid : Nat) :
    (clearStep sfx uid table snap st rid).roles.Sublist st.roles := by
  unfold clearStep
  cases hg : getRole table rid with
  | none => exact List.Sublist.refl _
  | some role =>
    dsimp only
    split
    · split
      · exact List.filter_sublist _
      · exact List.Sublist.refl _
    · exact List.Sublist.refl _

theorem clearStep_memberRoles_subset (sfx : Str) (uid : Nat)
    (table : List RoleR) (snap : List MemberR) (st : GuildState)
    (rid v : Nat) :
    memberRoles (clearStep sfx uid table snap st rid) v ⊆ memberRoles st v := by
  unfold clearStep
  cases hg : getRole table rid with
  | none => exact fun x hx => hx
  | some role =>
    dsimp only
    split
    · split
      · intro x hx
        rw [memberRoles_deleteRole, memberRoles_removeMemberRole] at hx
        have hx1 := List.mem_of_mem_filter hx
        split at hx1
        · exact List.mem_of_mem_filter hx1
        · exact hx1
      · intro x hx
        rw [memberRoles_removeMemberRole] at hx
        split at hx
        · exact List.mem_of_mem_filter hx
        · exact hx
    · exact fun x hx => hx

theorem applyClear_nextId (sfx : Str) (uid : Nat) (table : List RoleR)
    (snap : List MemberR) :
    ∀ (l : List Nat) (st : GuildState),
      (applyClear sfx uid table snap l st).nextId = st.nextId := by
  intro l
  induction l with
  | nil => intro st; rfl
  | cons a as ih =>
    intro st
    rw [applyClear, ih, clearStep_nextId]

theorem applyClear_roles_sublist (sfx : Str) (uid : Nat) (table : List RoleR)
    (snap : List MemberR) :
    ∀ (l : List Nat) (st : GuildState),
      (applyClear sfx uid table snap l st).roles.Sublist st.roles := by
  intro l
  induction l with
  | nil => intro st; exact List.Sublist.refl _
  | cons a as ih =>
    intro st
    rw [applyClear]
    exact (ih _).trans (clearStep_roles_sublist sfx uid table snap st a)

theorem applyClear_memberRoles_subset (sfx : Str) (uid : Nat)
    (table : List RoleR) (snap : List MemberR) :
    ∀ (l : List Nat) (st : GuildState) (v : Nat),
      memberRoles (applyClear sfx uid table snap l st) v ⊆ memberRoles st v := by
  intro l
  induction l with
  | nil => intro st v x hx; exact hx
  | cons a as ih =>
    intro st v x hx
    rw [applyClear] at hx
    exact clearStep_memberRoles_subset sfx uid table snap st a v (ih _ v hx)

theorem applyClear_members_entrywise (sfx : Str) (uid : Nat)
    (table : List RoleR) (snap : List MemberR) :
    ∀ (l : List Nat) (st : GuildState),
      ∀ m' ∈ (applyClear sfx uid table snap l st).members,
        ∃ m ∈ st.members, m'.userId = m.userId ∧ m'.roles ⊆ m.roles := by
  intro l
  induction l with
  | nil =>
    intro st m' hm'
    exact ⟨m', hm', rfl, fun x hx => hx⟩
  | cons a as ih =>
    intro st m' hm'
    obtain ⟨m1, hm1, hid1, hsub1⟩ := ih (clearStep sfx uid table snap st a) m' hm'
    have hstep : ∃ m ∈ st.members, m1.userId = m.userId ∧ m1.roles ⊆ m.roles := by
      clear hm' hsub1 hid1
      unfold clearStep at hm1
      cases hg : getRole table a with
      | none =>
        rw [hg] at hm1
        exact ⟨m1, hm1, rfl, fun x hx => hx⟩
      | some role =>
        rw [hg] at hm1
        dsimp only at hm1
        split at hm1
        · split at hm1
          · unfold deleteRole removeMemberRole at hm1
            dsimp only at hm1
            rw [List.mem_map] at hm1
            obtain ⟨m2, hm2, hm2eq⟩ := hm1
            rw [List.mem_map] at hm2
            obtain ⟨m3, hm3, hm3eq⟩ := hm2
            refine ⟨m3, hm3, ?_, ?_⟩
            · subst hm2eq
              dsimp only
              subst hm3eq
              by_cases h : (m3.userId == uid) <;> simp [h]
            · subst hm2eq
              dsimp only
              intro x hx
              have hx2 := List.mem_of_mem_filter hx
              subst hm3eq
              by_cases h : (m3.userId == uid)
              · simp only [h, if_pos] at hx2
                exact List.mem_of_mem_filter hx2
              · simp only [h] at hx2
                simpa using hx2
          · unfold removeMemberRole at hm1
            dsimp only at hm1
            rw [List.mem_map] at hm1
            obtain ⟨m3, hm3, hm3eq⟩ := hm1
            refine ⟨m3, hm3, ?_, ?_⟩
            · subst hm3eq
              by_cases h : (m3.userId == uid) <;> simp [h]
            · subst hm3eq
              by_cases h : (m3.userId == uid)
              · simp only [h, if_pos]
                intro x hx
                exact List.mem_of_mem_filter hx
              · simp only [h]
                intro x hx
                simpa using hx
        · exact ⟨m1, hm1, rfl, fun x hx => hx⟩
    obtain ⟨m, hm, hid, hsub⟩ := hstep
    exact ⟨m, hm, hid1.trans hid, hsub1.trans hsub⟩

theorem getRole_id {table : List RoleR} {rid : Nat} {r : RoleR}
    (h : getRole table rid = some r) : r ∈ table ∧ r.id = rid :=
  ⟨List.mem_of_find?_eq_some h, by simpa using List.find?_some h⟩

theorem applyClear_removes (sfx : Str) (uid : Nat) (table : List RoleR)
    (snap : List MemberR) {rid : Nat} {r : RoleR}
    (hrole : getRole table rid = some r)
    (hchar : endsWithL r.name sfx = true) :
    ∀ (l : List Nat) (st : GuildState), rid ∈ l →
      rid ∉ memberRoles (applyClear sfx uid table snap l st) uid := by
  intro l
  induction l with
  | nil => intro st h; cases h
  | cons a as ih =>
    intro st hmem
    rw [applyClear]
    by_cases ha : rid ∈ as
    · exact ih _ ha
    · have haa : a = rid := by
        rcases List.mem_cons.mp hmem with h | h
        · exact h.symm
        · exact absurd h ha
      subst haa
      have h1 : a ∉ memberRoles (clearStep sfx uid table snap st a) uid := by
        unfold clearStep
        rw [hrole]
        dsimp only
        split
        · split
          · rw [memberRoles_deleteRole]
            intro hc
            have h2 := (List.mem_filter.mp hc).2
            simp at h2
          · rw [memberRoles_removeMemberRole, if_pos rfl]
            intro hc
            have h2 := (List.mem_filter.mp hc).2
            simp at h2
        · next h => exact absurd hchar h
      intro hc
      exact h1 (applyClear_memberRoles_subset sfx uid table snap as _ uid hc)

theorem applyClear_deletes (sfx : Str) (uid : Nat) (table : List RoleR)
    (snap : List MemberR) {rid : Nat} {r : RoleR}
    (hrole : getRole table rid = some r)
    (hchar : endsWithL r.name sfx = true)
    (hemp : is_role_empty snap uid rid = true) :
    ∀ (l : List Nat) (st : GuildState), rid ∈ l →
      ∀ r' ∈ (applyClear sfx uid table snap l st).roles, r'.id ≠ rid := by
  intro l
  induction l with
  | nil => intro st h; cases h
  | cons a as ih =>
    intro st hmem
    rw [applyClear]
    by_cases ha : rid ∈ as
    · exact ih _ ha
    · have haa : a = rid := by
        rcases List.mem_cons.mp hmem with h | h
        · exact h.symm
        · exact absurd h ha
      subst haa
      intro r' hr'
      have hr'' : r' ∈ (clearStep sfx uid table snap st a).roles :=
        (applyClear_roles_sublist sfx uid table snap as _).subset hr'
      unfold clearStep at hr''
      rw [hrole] at hr''
      dsimp only at hr''
      rw [if_pos hchar, if_pos hemp] at hr''
      rw [deleteRole_roles, removeMemberRole_roles] at hr''
      have h2 := (List.mem_filter.mp hr'').2
      simpa using h2

theorem applyClear_preserves_role (sfx : Str) (uid : Nat) (table : List RoleR)
    (snap : List MemberR) {rid : Nat} {r : RoleR}
    (hemp : is_role_empty snap uid rid = false) (hid : r.id = rid) :
    ∀ (l : List Nat) (st : GuildState), r ∈ st.roles →
      r ∈ (applyClear sfx uid table snap l st).roles := by
  intro l
  induction l with
  | nil => intro st h; exact h
  | cons a as ih =>
    intro st hr
    rw [applyClear]
    apply ih
    unfold clearStep
    cases hg : getRole table a with
    | none => exact hr
    | some role =>
      dsimp only
      split
      · split
        · next hempA =>
          rw [deleteRole_roles, removeMemberRole_roles]
          rw [List.mem_filter]
          refine ⟨hr, ?_⟩
          have hne : r.id ≠ a := by
            intro he
            have h3 : a = rid := by rw [← he, hid]
            rw [h3] at hempA
            rw [hempA] at hemp
            simp at hemp
          simp [hne]
        · exact hr
      · exact hr

theorem clearLoop_eq_applyClear (sfx : Str) (uid : Nat) (table : List RoleR)
    (snap : List MemberR) :
    ∀ (l : List Nat) (st : GuildState),
      (∀ rid ∈ l, (getRole table rid).isSome = true) →
      clearLoop sfx uid table snap l st
        = (applyClear sfx uid table snap l st, none) := by
  intro l
  induction l with
  | nil => intro st _; rfl
  | cons a as ih =>
    intro st hl
    have ha : (getRole table a).isSome = true := hl a (List.mem_cons_self a as)
    rw [clearLoop, applyClear]
    unfold clearStep
    cases hg : getRole table a with
    | none => rw [hg] at ha; cases ha
    | some role =>
      dsimp only
      split
      · exact ih _ (fun x hx => hl x (List.mem_cons_of_mem a hx))
      · exact ih _ (fun x hx => hl x (List.mem_cons_of_mem a hx))

theorem clearLoop_lookups_of_ok (sfx : Str) (uid : Nat) (table : List RoleR)
    (snap : List MemberR) :
    ∀ (l : List Nat) (st st' : GuildState),
      clearLoop sfx uid table snap l st = (st', none) →
      ∀ rid ∈ l, (getRole table rid).isSome = true := by
  intro l
  induction l with
  | nil => intro st st' _ rid h; cases h
  | cons a as ih =>
    intro st st' hok rid hrid
    rw [clearLoop] at hok
    cases hg : getRole table a with
    | none =>
      rw [hg] at hok
      dsimp only at hok
      simp at hok
    | some role =>
      rw [hg] at hok
      dsimp only at hok
      rcases List.mem_cons.mp hrid with h | h
      · subst h; rw [hg]; rfl
      · split at hok
        · exact ih _ _ hok rid h
        · exact ih _ _ hok rid h

theorem clearLoop_corrupt (sfx : Str) (uid : Nat) (table : List RoleR)
    (snap : List MemberR) {rid : Nat} (hbad : getRole table rid = none) :
    ∀ (l : List Nat) (st : GuildState), rid ∈ l →
      (clearLoop sfx uid table snap l st).2 = some Err.corruptState := by
  intro l
  induction l with
  | nil => intro st h; cases h
  | cons a as ih =>
    intro st hmem
    rw [clearLoop]
    cases hg : getRole table a with
    | none => rfl
    | some role =>
      dsimp only
      have ha : rid ∈ as := by
        rcases List.mem_cons.mp hmem with h | h
        · subst h; rw [hbad] at hg; cases hg
        · exact h
      split
      · exact ih _ ha
      · exact ih _ ha

theorem clearLoop_trunc (sfx : Str) (uid : Nat) (table : List RoleR)
    (snap : List MemberR) {rid : Nat} (hbad : getRole table rid = none) :
    ∀ (l1 l2 : List Nat) (st : GuildState),
      clearLoop sfx uid table snap (l1 ++ rid :: l2) st
        = clearLoop sfx uid table snap (l1 ++ [rid]) st := by
  intro l1
  induction l1 with
  | nil =>
    intro l2 st
    rw [List.nil_append, List.nil_append, clearLoop, clearLoop, hbad]
  | cons a as ih =>
    intro l2 st
    rw [List.cons_append, List.cons_append, clearLoop, clearLoop]
    cases hg : getRole table a with
    | none => rfl
    | some role =>
      dsimp only
      split
      · exact ih _ _
      · exact ih _ _

/-- C6: during Clearing for category C, every role held by the invoking
member whose name ends with C's suffix is removed from the member; then,
judged against the member snapshot fetched once at the start of Clearing
(no re-fetch), the role is deleted from the guild when no member other
than the invoker holds it, and survives in the guild otherwise. -/
theorem claim_C6 (k : CharKind) (uid : Nat) (st st' : GuildState)
    (rid : Nat) (r : RoleR)
    (hclear : CharKind.clear k uid st = (st', none))
    (hmem : rid ∈ memberRoles st uid)
    (hrole : getRole st.roles rid = some r)
    (hchar : is_character_role r k = true) :
    rid ∉ memberRoles st' uid ∧
    (is_role_empty st.members uid rid = true →
      ∀ r' ∈ st'.roles, r'.id ≠ rid) ∧
    (is_role_empty st.members uid rid = false → r ∈ st'.roles) := by
  unfold CharKind.clear clearCore at hclear
  have hlk := clearLoop_lookups_of_ok k.pfix uid st.roles st.members
    (memberRoles st uid) st st' hclear
  have heq := clearLoop_eq_applyClear k.pfix uid st.roles st.members
    (memberRoles st uid) st hlk
  rw [heq] at hclear
  have hst' : st'
      = applyClear k.pfix uid st.roles st.members (memberRoles st uid) st :=
    (congrArg Prod.fst hclear).symm
  subst hst'
  have hchar' : endsWithL r.name k.pfix = true := hchar
  refine ⟨?_, ?_, ?_⟩
  · exact applyClear_removes k.pfix uid st.roles st.members hrole hchar' _ _ hmem
  · intro hemp
    exact applyClear_deletes k.pfix uid st.roles st.members hrole hchar' hemp _ _ hmem
  · intro hemp
    exact applyClear_preserves_role k.pfix uid st.roles st.members hemp
      (getRole_id hrole).2 _ _ (getRole_id hrole).1

/-- Concrete state for the C6 witness: the invoker is the sole holder
of the Primary tag-role "Mario  main". -/
def c6WitnessSt : GuildState :=
  ⟨[⟨1, "Mario  main".toList, 15844367⟩], [⟨7, [1]⟩], 2⟩

/-- State after clearing `c6WitnessSt`: role removed and garbage
collected. -/
def c6WitnessSt' : GuildState := ⟨[], [⟨7, []⟩], 2⟩

/-- Witness for C6 at a concrete state. -/
theorem claim_C6_witness :
    (CharKind.clear CharKind.Main 7 c6WitnessSt = (c6WitnessSt', none)) ∧
    (1 ∈ memberRoles c6WitnessSt 7) ∧
    (getRole c6WitnessSt.roles 1 = some ⟨1, "Mario  main".toList, 15844367⟩) ∧
    (is_character_role ⟨1, "Mario  main".toList, 15844367⟩ CharKind.Main = true) ∧
    (1 ∉ memberRoles c6WitnessSt' 7 ∧
      (is_role_empty c6WitnessSt.members 7 1 = true →
        ∀ r' ∈ c6WitnessSt'.roles, r'.id ≠ 1) ∧
      (is_role_empty c6WitnessSt.members 7 1 = false →
        (⟨1, "Mario  main".toList, 15844367⟩ : RoleR) ∈ c6WitnessSt'.roles)) :=
  ⟨by decide, by decide, by decide, by decide,
    claim_C6 CharKind.Main 7 c6WitnessSt c6WitnessSt' 1
      ⟨1, "Mario  main".toList, 15844367⟩
      (by decide) (by decide) (by decide) (by decide)⟩

/-- C7: a role id held by the invoking member but absent from the
fetched role list makes Clearing stop with the corrupt-state error at
that id — entries after it are never processed — and the whole
invocation returns Clearing's partial state: Assigning never runs, and
mutations performed before detection are not rolled back. -/
theorem claim_C7 (k : CharKind) (uid : Nat) (chars : List Str)
    (st : GuildState) (rid : Nat) (l1 l2 : List Nat)
    (hsplit : memberRoles st uid = l1 ++ rid :: l2)
    (hbad : getRole st.roles rid = none) :
    (CharKind.clear k uid st).2 = some Err.corruptState ∧
    CharKind.clear k uid st
      = clearLoop k.pfix uid st.roles st.members (l1 ++ [rid]) st ∧
    handler_for_kind k uid chars st = CharKind.clear k uid st := by
  have hmem : rid ∈ memberRoles st uid := by
    rw [hsplit]
    exact List.mem_append.mpr (Or.inr (List.mem_cons_self _ _))
  have h1 : (CharKind.clear k uid st).2 = some Err.corruptState := by
    unfold CharKind.clear clearCore
    exact clearLoop_corrupt k.pfix uid st.roles st.members hbad _ st hmem
  refine ⟨h1, ?_, ?_⟩
  · unfold CharKind.clear clearCore
    rw [hsplit]
    exact clearLoop_trunc k.pfix uid st.roles st.members hbad l1 l2 st
  · unfold CharKind.clear at h1 ⊢
    unfold handler_for_kind handlerCore
    unfold clearCore at h1 ⊢
    rcases hc : clearLoop k.pfix uid st.roles st.members (memberRoles st uid) st
      with ⟨s1, e1⟩
    rw [hc] at h1
    dsimp only at h1
    subst h1
    rfl

/-! ### Resolution helpers for the assigning loop -/

/-- The tag-role name (if any) that the role id `rid` contributes to
the member's held tag-role names in state `st`. -/
def tagNameAt (sfx : Str) (st : GuildState) (rid : Nat) : Option Str :=
  match getRole st.roles rid with
  | none => none
  | some r => if endsWithL r.name sfx then some r.name else none

theorem heldTagNames_eq (sfx : Str) (st : GuildState) (uid : Nat) :
    heldTagNames sfx st uid = (memberRoles st uid).filterMap (tagNameAt sfx st) :=
  rfl

theorem getRole_nodup_mem {table : List RoleR}
    (hN : (table.map RoleR.id).Nodup) {r : RoleR} (hr : r ∈ table) :
    getRole table r.id = some r := by
  induction table with
  | nil => cases hr
  | cons a as ih =>
    rw [List.map_cons, List.nodup_cons] at hN
    rcases List.mem_cons.mp hr with h | h'
    · subst h
      unfold getRole
      rw [List.find?_cons_of_pos _ (by simp)]
    · have hne : ¬(a.id == r.id) = true := by
        simp only [beq_iff_eq]
        intro he
        exact hN.1 (by rw [he]; exact List.mem_map_of_mem RoleR.id h')
      unfold getRole at ih ⊢
      rw [@List.find?_cons_of_neg RoleR (fun r1 => r1.id == r.id) a as hne]
      exact ih hN.2 h'

theorem eq_of_id_eq_nodup {table : List RoleR}
    (hN : (table.map RoleR.id).Nodup) {r1 r2 : RoleR}
    (h1 : r1 ∈ table) (h2 : r2 ∈ table) (h : r1.id = r2.id) : r1 = r2 := by
  have e1 := getRole_nodup_mem hN h1
  have e2 := getRole_nodup_mem hN h2
  rw [h] at e1
  rw [e1] at e2
  exact Option.some.inj e2

theorem getRole_append_left {table : List RoleR} {rid : Nat} {r : RoleR}
    (h : getRole table rid = some r) (extra : List RoleR) :
    getRole (table ++ extra) rid = some r := by
  unfold getRole at *
  rw [List.find?_append, h]
  rfl

theorem getRole_append_none {table : List RoleR} {rid : Nat}
    (h : getRole table rid = none) (extra : List RoleR) :
    getRole (table ++ extra) rid = getRole extra rid := by
  unfold getRole at *
  rw [List.find?_append, h]
  rfl

theorem getRole_none_of_lt {table : List RoleR} {nid : Nat}
    (h : ∀ r ∈ table, r.id < nid) : getRole table nid = none := by
  unfold getRole
  rw [List.find?_eq_none]
  intro r hr
  simp only [beq_iff_eq]
  exact Nat.ne_of_lt (h r hr)

theorem getRole_append_fresh {table : List RoleR} {x : Nat} (nr : RoleR)
    (hne : nr.id ≠ x) :
    getRole (table ++ [nr]) x = getRole table x := by
  cases hg : getRole table x with
  | some r => exact getRole_append_left hg _
  | none =>
    rw [getRole_append_none hg]
    unfold getRole
    rw [List.find?_eq_none]
    intro r hr
    have h1 : r = nr := List.mem_singleton.mp hr
    subst h1
    simp [hne]

theorem entry_isSome_addMemberRole (st : GuildState) (uid rid v : Nat) :
    (((addMemberRole st uid rid).members.find? (fun m => m.userId == v)).isSome)
      = ((st.members.find? (fun m => m.userId == v)).isSome) := by
  unfold addMemberRole
  dsimp only
  rw [find?_userId_map _ (fun m => by by_cases h : (m.userId == uid) <;> simp [h])]
  cases st.members.find? (fun m => m.userId == v) <;> rfl

/-- Main lemma about the Assigning loop: starting from a state whose
role ids are unique and below the fresh-id counter, where the fetched
`table` is part of the state's role table, the invoker exists, all of
the invoker's held role ids are below the counter, and no held role is
already named like one of the requested tags, the loop appends exactly
one tag-role name per requested tag to the member's held tag-role
names. -/
theorem assignLoop_heldTagNames (sfx : Str) (col : Nat) (uid : Nat)
    (table : List RoleR) :
    ∀ (chars : List Str) (st : GuildState),
      chars.Nodup →
      ((st.roles.map RoleR.id).Nodup) →
      (∀ r ∈ st.roles, r.id < st.nextId) →
      (∀ r ∈ table, r ∈ st.roles) →
      (∀ x ∈ memberRoles st uid, x < st.nextId) →
      ((st.members.find? (fun m => m.userId == uid)).isSome = true) →
      (∀ t ∈ chars, ∀ x ∈ memberRoles st uid, ∀ r,
        getRole st.roles x = some r → r.name ≠ roleNameFor t sfx) →
      heldTagNames sfx (assignLoop sfx col uid table chars st) uid
        = heldTagNames sfx st uid ++ chars.map (fun t => roleNameFor t sfx) := by
  intro chars
  induction chars with
  | nil =>
    intro st _ _ _ _ _ _ _
    rw [assignLoop]
    simp
  | cons t rest ih =>
    intro st hND hN hF hT hMF hE hNH
    have hrest : rest.Nodup := (List.nodup_cons.mp hND).2
    have htout : t ∉ rest := (List.nodup_cons.mp hND).1
    rw [assignLoop]
    cases hf : table.find? (fun r => r.name == roleNameFor t sfx) with
    | some r =>
      dsimp only
      have hrT : r ∈ table := List.mem_of_find?_eq_some hf
      have hrSt : r ∈ st.roles := hT r hrT
      have hrName : r.name = roleNameFor t sfx := by
        simpa using List.find?_some hf
      have hrRes : getRole st.roles r.id = some r := getRole_nodup_mem hN hrSt
      have hrFresh : r.id < st.nextId := hF r hrSt
      have hNotMem : r.id ∉ memberRoles st uid := fun hc =>
        hNH t (List.mem_cons_self _ _) r.id hc r hrRes hrName
      have hcont : (memberRoles st uid).contains r.id = false := by
        simp [hNotMem]
      have hMR : memberRoles (addMemberRole st uid r.id) uid
          = memberRoles st uid ++ [r.id] := by
        rw [memberRoles_addMemberRole_self st uid r.id hE, hcont]
        simp
      have hTag : tagNameAt sfx (addMemberRole st uid r.id) r.id
          = some (roleNameFor t sfx) := by
        show (match getRole st.roles r.id with
              | none => none
              | some rr => if endsWithL rr.name sfx = true then some rr.name else none)
            = some (roleNameFor t sfx)
        rw [hrRes]
        dsimp only
        rw [hrName, if_pos (endsWithL_roleNameFor t sfx)]
      have hHeld : heldTagNames sfx (addMemberRole st uid r.id) uid
          = heldTagNames sfx st uid ++ [roleNameFor t sfx] := by
        rw [heldTagNames_eq, heldTagNames_eq, hMR, List.filterMap_append]
        have h1 : List.filterMap (tagNameAt sfx (addMemberRole st uid r.id))
            (memberRoles st uid)
            = List.filterMap (tagNameAt sfx st) (memberRoles st uid) :=
          List.filterMap_congr (fun x _ => rfl)
        have h2 : List.filterMap (tagNameAt sfx (addMemberRole st uid r.id)) [r.id]
            = [roleNameFor t sfx] := by
          simp [List.filterMap_cons, hTag]
        rw [h1, h2]
      have hMF' : ∀ x ∈ memberRoles (addMemberRole st uid r.id) uid,
          x < (addMemberRole st uid r.id).nextId := by
        intro x hx
        rw [hMR] at hx
        rcases List.mem_append.mp hx with h | h
        · exact hMF x h
        · rw [List.mem_singleton.mp h]
          exact hrFresh
      have hE' : (((addMemberRole st uid r.id).members.find?
          (fun m => m.userId == uid)).isSome = true) := by
        rw [entry_isSome_addMemberRole]
        exact hE
      have hNH' : ∀ s ∈ rest, ∀ x ∈ memberRoles (addMemberRole st uid r.id) uid,
          ∀ r', getRole (addMemberRole st uid r.id).roles x = some r' →
            r'.name ≠ roleNameFor s sfx := by
        intro s hs x hx r' hres hname
        rw [hMR] at hx
        rcases List.mem_append.mp hx with h | h
        · exact hNH s (List.mem_cons_of_mem t hs) x h r' hres hname
        · have hxr : x = r.id := List.mem_singleton.mp h
          subst hxr
          have h2 : r = r' := Option.some.inj (hrRes.symm.trans hres)
          rw [← h2, hrName] at hname
          exact htout (by rw [roleNameFor_inj hname]; exact hs)
      rw [ih (addMemberRole st uid r.id) hrest hN hF hT hMF' hE' hNH', hHeld,
        List.map_cons, List.append_assoc]
      rfl
    | none =>
      dsimp only
      show heldTagNames sfx (assignLoop sfx col uid table rest
          (addMemberRole (createRole st (roleNameFor t sfx) col).1 uid st.nextId)) uid
        = heldTagNames sfx st uid
            ++ List.map (fun s => roleNameFor s sfx) (t :: rest)
      have hresN : getRole st.roles st.nextId = none := getRole_none_of_lt hF
      have hfresh : getRole ((createRole st (roleNameFor t sfx) col).1).roles st.nextId
          = some ⟨st.nextId, roleNameFor t sfx, col⟩ := by
        show getRole (st.roles ++ [⟨st.nextId, roleNameFor t sfx, col⟩]) st.nextId
            = some ⟨st.nextId, roleNameFor t sfx, col⟩
        rw [getRole_append_none hresN]
        unfold getRole
        rw [List.find?_cons_of_pos _ (by simp)]
      have hold : ∀ x, x ≠ st.nextId →
          getRole ((addMemberRole (createRole st (roleNameFor t sfx) col).1 uid
            st.nextId)).roles x = getRole st.roles x := by
        intro x hx
        show getRole (st.roles ++ [⟨st.nextId, roleNameFor t sfx, col⟩]) x
            = getRole st.roles x
        exact getRole_append_fresh _ (Ne.symm hx)
      have hNotMem : st.nextId ∉ memberRoles st uid := fun hc =>
        Nat.ne_of_lt (hMF _ hc) rfl
      have hcont : (memberRoles st uid).contains st.nextId = false := by
        simp [hNotMem]
      have hEc : ((((createRole st (roleNameFor t sfx) col).1).members.find?
          (fun m => m.userId == uid)).isSome = true) := hE
      have hMR : memberRoles (addMemberRole (createRole st (roleNameFor t sfx) col).1
            uid st.nextId) uid
          = memberRoles st uid ++ [st.nextId] := by
        rw [memberRoles_addMemberRole_self _ _ _ hEc]
        show (if (memberRoles st uid).contains st.nextId = true
          then memberRoles st uid else memberRoles st uid ++ [st.nextId])
            = memberRoles st uid ++ [st.nextId]
        rw [hcont]
        simp
      have hTagNew : tagNameAt sfx (addMemberRole
            (createRole st (roleNameFor t sfx) col).1 uid st.nextId) st.nextId
          = some (roleNameFor t sfx) := by
        show (match getRole ((createRole st (roleNameFor t sfx) col).1).roles st.nextId with
              | none => none
              | some rr => if endsWithL rr.name sfx = true then some rr.name else none)
            = some (roleNameFor t sfx)
        rw [hfresh]
        dsimp only
        rw [if_pos (endsWithL_roleNameFor t sfx)]
      have hTagOld : ∀ x ∈ memberRoles st uid,
          tagNameAt sfx (addMemberRole (createRole st (roleNameFor t sfx) col).1
            uid st.nextId) x = tagNameAt sfx st x := by
        intro x hx
        have hxne : x ≠ st.nextId := Nat.ne_of_lt (hMF x hx)
        unfold tagNameAt
        rw [hold x hxne]
      have hHeld : heldTagNames sfx (addMemberRole
            (createRole st (roleNameFor t sfx) col).1 uid st.nextId) uid
          = heldTagNames sfx st uid ++ [roleNameFor t sfx] := by
        rw [heldTagNames_eq, heldTagNames_eq, hMR, List.filterMap_append]
        have h1 : List.filterMap (tagNameAt sfx (addMemberRole
              (createRole st (roleNameFor t sfx) col).1 uid st.nextId))
            (memberRoles st uid)
            = List.filterMap (tagNameAt sfx st) (memberRoles st uid) :=
          List.filterMap_congr hTagOld
        have h2 : List.filterMap (tagNameAt sfx (addMemberRole
              (createRole st (roleNameFor t sfx) col).1 uid st.nextId)) [st.nextId]
            = [roleNameFor t sfx] := by
          simp [List.filterMap_cons, hTagNew]
        rw [h1, h2]
      have hN' : (((addMemberRole (createRole st (roleNameFor t sfx) col).1 uid
          st.nextId).roles).map RoleR.id).Nodup := by
        show ((st.roles ++ [(⟨st.nextId, roleNameFor t sfx, col⟩ : RoleR)]).map
          RoleR.id).Nodup
        rw [List.map_append]
        refine List.Nodup.append hN (by simp) ?_
        show (st.roles.map RoleR.id).Disjoint [st.nextId]
        rw [List.disjoint_singleton]
        intro hc
        rcases List.mem_map.mp hc with ⟨r0, hr0, hid0⟩
        exact Nat.ne_of_lt (hF r0 hr0) hid0
      have hF' : ∀ r0 ∈ (addMemberRole (createRole st (roleNameFor t sfx) col).1 uid
          st.nextId).roles, r0.id < (addMemberRole
            (createRole st (roleNameFor t sfx) col).1 uid st.nextId).nextId := by
        show ∀ r0 ∈ st.roles ++ [(⟨st.nextId, roleNameFor t sfx, col⟩ : RoleR)],
          r0.id < st.nextId + 1
        intro r0 hr0
        rcases List.mem_append.mp hr0 with h | h
        · exact Nat.lt_succ_of_lt (hF r0 h)
        · rw [List.mem_singleton.mp h]
          exact Nat.lt_succ_self _
      have hT' : ∀ r0 ∈ table, r0 ∈ (addMemberRole
          (createRole st (roleNameFor t sfx) col).1 uid st.nextId).roles := by
        intro r0 hr0
        show r0 ∈ st.roles ++ [(⟨st.nextId, roleNameFor t sfx, col⟩ : RoleR)]
        exact List.mem_append_left _ (hT r0 hr0)
      have hMF' : ∀ x ∈ memberRoles (addMemberRole
          (createRole st (roleNameFor t sfx) col).1 uid st.nextId) uid,
          x < (addMemberRole (createRole st (roleNameFor t sfx) col).1 uid
            st.nextId).nextId := by
        intro x hx
        rw [hMR] at hx
        show x < st.nextId + 1
        rcases List.mem_append.mp hx with h | h
        · exact Nat.lt_succ_of_lt (hMF x h)
        · rw [List.mem_singleton.mp h]
          exact Nat.lt_succ_self _
      have hE' : (((addMemberRole (createRole st (roleNameFor t sfx) col).1 uid
          st.nextId).members.find? (fun m => m.userId == uid)).isSome = true) := by
        rw [entry_isSome_addMemberRole]
        exact hEc
      have hNH' : ∀ s ∈ rest, ∀ x ∈ memberRoles (addMemberRole
          (createRole st (roleNameFor t sfx) col).1 uid st.nextId) uid,
          ∀ r', getRole (addMemberRole (createRole st (roleNameFor t sfx) col).1 uid
            st.nextId).roles x = some r' → r'.name ≠ roleNameFor s sfx := by
        intro s hs x hx r' hres hname
        rw [hMR] at hx
        rcases List.mem_append.mp hx with h | h
        · have hxne : x ≠ st.nextId := Nat.ne_of_lt (hMF x h)
          rw [hold x hxne] at hres
          exact hNH s (List.mem_cons_of_mem t hs) x h r' hres hname
        · have hxe : x = st.nextId := List.mem_singleton.mp h
          rw [hxe] at hres
          have h3 : getRole ((addMemberRole (createRole st (roleNameFor t sfx) col).1
              uid st.nextId)).roles st.nextId
              = some ⟨st.nextId, roleNameFor t sfx, col⟩ := hfresh
          have h2 : r' = ⟨st.nextId, roleNameFor t sfx, col⟩ :=
            (Option.some.inj (h3.symm.trans hres)).symm
          rw [h2] at hname
          dsimp only at hname
          exact htout (by rw [roleNameFor_inj hname]; exact hs)
      rw [ih (addMemberRole (createRole st (roleNameFor t sfx) col).1 uid st.nextId)
        hrest hN' hF' hT' hMF' hE' hNH', hHeld, List.map_cons, List.append_assoc]
      rfl

/-! ### Post-clear state facts -/

theorem entry_isSome_removeMemberRole (st : GuildState) (uid rid v : Nat) :
    (((removeMemberRole st uid rid).members.find? (fun m => m.userId == v)).isSome)
      = ((st.members.find? (fun m => m.userId == v)).isSome) := by
  unfold removeMemberRole
  dsimp only
  rw [find?_userId_map _ (fun m => by by_cases h : (m.userId == uid) <;> simp [h])]
  cases st.members.find? (fun m => m.userId == v) <;> rfl

theorem entry_isSome_deleteRole (st : GuildState) (rid v : Nat) :
    (((deleteRole st rid).members.find? (fun m => m.userId == v)).isSome)
      = ((st.members.find? (fun m => m.userId == v)).isSome) := by
  unfold deleteRole
  dsimp only
  rw [find?_userId_map
    (fun m => { m with roles := m.roles.filter (fun x => !(x == rid)) })
    (fun m => rfl)]
  cases st.members.find? (fun m => m.userId == v) <;> rfl

theorem entry_isSome_clearStep (sfx : Str) (uid : Nat) (table : List RoleR)
    (snap : List MemberR) (st : GuildState) (rid v : Nat) :
    (((clearStep sfx uid table snap st rid).members.find?
        (fun m => m.userId == v)).isSome)
      = ((st.members.find? (fun m => m.userId == v)).isSome) := by
  unfold clearStep
  cases hg : getRole table rid with
  | none => rfl
  | some role =>
    dsimp only
    split
    · split
      · rw [entry_isSome_deleteRole, entry_isSome_removeMemberRole]
      · rw [entry_isSome_removeMemberRole]
    · rfl

theorem entry_isSome_applyClear (sfx : Str) (uid : Nat) (table : List RoleR)
    (snap : List MemberR) :
    ∀ (l : List Nat) (st : GuildState) (v : Nat),
      (((applyClear sfx uid table snap l st).members.find?
          (fun m => m.userId == v)).isSome)
        = ((st.members.find? (fun m => m.userId == v)).isSome) := by
  intro l
  induction l with
  | nil => intro st v; rfl
  | cons a as ih =>
    intro st v
    rw [applyClear, ih, entry_isSome_clearStep]

theorem applyClear_preserves_nontag (sfx : Str) (uid : Nat) (table : List RoleR)
    (snap : List MemberR) {x : Nat} {r : RoleR}
    (hr : getRole table x = some r) (hchar : endsWithL r.name sfx = false) :
    ∀ (l : List Nat) (st : GuildState), r ∈ st.roles →
      r ∈ (applyClear sfx uid table snap l st).roles := by
  intro l
  induction l with
  | nil => intro st h; exact h
  | cons a as ih =>
    intro st h
    rw [applyClear]
    apply ih
    unfold clearStep
    cases hg : getRole table a with
    | none => exact h
    | some role =>
      dsimp only
      split
      · next hends =>
        split
        · rw [deleteRole_roles, removeMemberRole_roles, List.mem_filter]
          refine ⟨h, ?_⟩
          have hne : r.id ≠ a := by
            intro he
            have hx1 : r.id = x := (getRole_id hr).2
            rw [hx1] at he
            rw [← he] at hg
            rw [hr] at hg
            have h5 : r = role := Option.some.inj hg
            have h6 : endsWithL r.name sfx = true := by rw [h5]; exact hends
            rw [h6] at hchar
            simp at hchar
          simp [hne]
        · exact h
      · exact h

theorem getRole_sublist_of_mem {table ρ : List RoleR}
    (hsub : ρ.Sublist table) (hN : (table.map RoleR.id).Nodup)
    {r : RoleR} (hr : r ∈ ρ) : getRole ρ r.id = some r :=
  getRole_nodup_mem (List.Nodup.sublist (hsub.map RoleR.id) hN) hr

/-- Everything claim C1 needs about a successful clearing run. -/
theorem clearCore_post (sfx : Str) (uid : Nat) (st s1 : GuildState)
    (hN : (st.roles.map RoleR.id).Nodup)
    (hok : clearCore sfx uid st = (s1, none)) :
    s1.roles.Sublist st.roles ∧
    s1.nextId = st.nextId ∧
    (∀ v, memberRoles s1 v ⊆ memberRoles st v) ∧
    (∀ v, ((s1.members.find? (fun m => m.userId == v)).isSome)
      = ((st.members.find? (fun m => m.userId == v)).isSome)) ∧
    (∀ m' ∈ s1.members, ∃ m ∈ st.members, m'.userId = m.userId ∧ m'.roles ⊆ m.roles) ∧
    (∀ x ∈ memberRoles s1 uid, ∃ r, getRole st.roles x = some r
      ∧ endsWithL r.name sfx = false ∧ getRole s1.roles x = some r) := by
  unfold clearCore at hok
  have hlk := clearLoop_lookups_of_ok sfx uid st.roles st.members
    (memberRoles st uid) st s1 hok
  have heq := clearLoop_eq_applyClear sfx uid st.roles st.members
    (memberRoles st uid) st hlk
  rw [heq] at hok
  have hs1 : s1 = applyClear sfx uid st.roles st.members (memberRoles st uid) st :=
    (congrArg Prod.fst hok).symm
  subst hs1
  refine ⟨applyClear_roles_sublist _ _ _ _ _ _,
    applyClear_nextId _ _ _ _ _ _,
    fun v => applyClear_memberRoles_subset _ _ _ _ _ _ v,
    fun v => entry_isSome_applyClear _ _ _ _ _ _ v,
    applyClear_members_entrywise _ _ _ _ _ _,
    ?_⟩
  intro x hx
  have hx0 : x ∈ memberRoles st uid :=
    applyClear_memberRoles_subset _ _ _ _ _ _ uid hx
  have hsome := hlk x hx0
  cases hg : getRole st.roles x with
  | none => rw [hg] at hsome; cases hsome
  | some r =>
    have hends : endsWithL r.name sfx = false := by
      by_cases he : endsWithL r.name sfx = true
      · exact absurd hx (applyClear_removes sfx uid st.roles st.members hg he _ _ hx0)
      · simpa using he
    refine ⟨r, rfl, hends, ?_⟩
    have hrmem : r ∈ (applyClear sfx uid st.roles st.members
        (memberRoles st uid) st).roles :=
      applyClear_preserves_nontag sfx uid st.roles st.members hg hends _ _
        (getRole_id hg).1
    have hres := getRole_sublist_of_mem
      (applyClear_roles_sublist sfx uid st.roles st.members (memberRoles st uid) st)
      hN hrmem
    rw [(getRole_id hg).2] at hres
    exact hres

/-- C1: after a full synchronization invocation (Clearing then
Assigning) completes without error, the member's held tag-role names
for category C are exactly — one per tag, in order — the constructed
names of the submitted tag set, and no other tag-role for C is held.
Hypotheses: the tag set has no duplicates (TagSets are unique by
construction), the directory's role ids are unique and below the
fresh-id counter, and the invoking member exists in the guild. -/
theorem claim_C1 (k : CharKind) (uid : Nat) (S : List Str)
    (st st' : GuildState)
    (hS : S.Nodup)
    (hN : (st.roles.map RoleR.id).Nodup)
    (hF : ∀ r ∈ st.roles, r.id < st.nextId)
    (hE : (st.members.find? (fun m => m.userId == uid)).isSome = true)
    (hrun : handler_for_kind k uid S st = (st', none)) :
    heldTagNames k.pfix st' uid = S.map (fun t => roleNameFor t k.pfix) := by
  unfold handler_for_kind handlerCore at hrun
  rcases hc : clearCore k.pfix uid st with ⟨s1, e1⟩
  rw [hc] at hrun
  cases e1 with
  | some e => simp at hrun
  | none =>
    dsimp only at hrun
    have hst' : st' = assignCore k.pfix k.colour uid S s1 :=
      (congrArg Prod.fst hrun).symm
    subst hst'
    obtain ⟨hsub, hnext, hmsub, hentry, hmemw, hheld⟩ :=
      clearCore_post k.pfix uid st s1 hN hc
    have hN1 : (s1.roles.map RoleR.id).Nodup :=
      List.Nodup.sublist (hsub.map RoleR.id) hN
    have hF1 : ∀ r ∈ s1.roles, r.id < s1.nextId := by
      intro r hr
      rw [hnext]
      exact hF r (hsub.subset hr)
    have hT1 : ∀ r ∈ s1.roles, r ∈ s1.roles := fun r hr => hr
    have hMF1 : ∀ x ∈ memberRoles s1 uid, x < s1.nextId := by
      intro x hx
      obtain ⟨r, hr, _, _⟩ := hheld x hx
      rw [hnext, ← (getRole_id hr).2]
      exact hF r (getRole_id hr).1
    have hE1 : (s1.members.find? (fun m => m.userId == uid)).isSome = true := by
      rw [hentry uid]
      exact hE
    have hNH1 : ∀ t ∈ S, ∀ x ∈ memberRoles s1 uid, ∀ r,
        getRole s1.roles x = some r → r.name ≠ roleNameFor t k.pfix := by
      intro t _ x hx r hres
      obtain ⟨r0, _, hend0, hres0⟩ := hheld x hx
      have hrr : r = r0 := by
        rw [hres0] at hres
        exact (Option.some.inj hres).symm
      rw [hrr]
      exact ne_roleNameFor_of_not_ends hend0 t
    have hheld1 : heldTagNames k.pfix s1 uid = [] := by
      rw [heldTagNames_eq]
      rw [List.filterMap_eq_nil_iff]
      intro x hx
      obtain ⟨r0, _, hend0, hres0⟩ := hheld x hx
      unfold tagNameAt
      rw [hres0]
      dsimp only
      simp [hend0]
    show heldTagNames k.pfix (assignCore k.pfix k.colour uid S s1) uid = _
    unfold assignCore
    rw [assignLoop_heldTagNames k.pfix k.colour uid s1.roles S s1
      hS hN1 hF1 hT1 hMF1 hE1 hNH1, hheld1]
    simp

/-- Initial state for the C1 witness: empty guild, one member. -/
def c1WitnessSt : GuildState := ⟨[], [⟨7, []⟩], 0⟩

/-- Final state for the C1 witness. -/
def c1WitnessSt' : GuildState :=
  ⟨[⟨0, "Mario  main".toList, 15844367⟩], [⟨7, [0]⟩], 1⟩

/-- Witness for C1 at a concrete invocation. -/
theorem claim_C1_witness :
    (["Mario".toList] : List Str).Nodup ∧
    (c1WitnessSt.roles.map RoleR.id).Nodup ∧
    (∀ r ∈ c1WitnessSt.roles, r.id < c1WitnessSt.nextId) ∧
    ((c1WitnessSt.members.find? (fun m => m.userId == 7)).isSome = true) ∧
    handler_for_kind CharKind.Main 7 ["Mario".toList] c1WitnessSt
      = (c1WitnessSt', none) ∧
    heldTagNames (CharKind.pfix CharKind.Main) c1WitnessSt' 7
      = (["Mario".toList] : List Str).map
          (fun t => roleNameFor t (CharKind.pfix CharKind.Main)) :=
  ⟨by decide, by decide, by decide, by decide, by decide,
    claim_C1 CharKind.Main 7 ["Mario".toList] c1WitnessSt c1WitnessSt'
      (by decide) (by decide) (by decide) (by decide) (by decide)⟩

/-! ### Second-invocation facts for claim C8 -/

theorem members_addMemberRole_cases (st : GuildState) (uid rid : Nat) :
    ∀ m2 ∈ (addMemberRole st uid rid).members,
      ∃ m1 ∈ st.members, m2.userId = m1.userId ∧
        (m2.roles = m1.roles ∨ (m1.userId = uid ∧ m2.roles = m1.roles ++ [rid])) := by
  intro m2 hm2
  unfold addMemberRole at hm2
  dsimp only at hm2
  rcases List.mem_map.mp hm2 with ⟨m1, hm1, hm1eq⟩
  by_cases hu : (m1.userId == uid) = true
  · by_cases hc : (m1.roles.contains rid) = true
    · have hcm : rid ∈ m1.roles := by simpa using hc
      refine ⟨m1, hm1, ?_, Or.inl ?_⟩ <;> rw [← hm1eq] <;> simp [hu, hcm]
    · have hcm : rid ∉ m1.roles := by simpa using hc
      refine ⟨m1, hm1, ?_, Or.inr ⟨by simpa using hu, ?_⟩⟩ <;>
        rw [← hm1eq] <;> simp [hu, hcm]
  · refine ⟨m1, hm1, ?_, Or.inl ?_⟩ <;> rw [← hm1eq] <;> simp [hu]

/-- A successful clearing run deletes a tag-role that the invoker held
and nobody else held (per the fetched snapshot): no role with that id
remains in the guild. -/
theorem clear_deletes_created (sfx : Str) (uid : Nat) (stA s2 : GuildState)
    (hok : clearCore sfx uid stA = (s2, none))
    {nid : Nat} {nr : RoleR}
    (hres : getRole stA.roles nid = some nr)
    (hends : endsWithL nr.name sfx = true)
    (hmem : nid ∈ memberRoles stA uid)
    (hemp : is_role_empty stA.members uid nid = true) :
    s2.roles.Sublist stA.roles ∧ (∀ r' ∈ s2.roles, r'.id ≠ nid) := by
  unfold clearCore at hok
  have hlk := clearLoop_lookups_of_ok sfx uid stA.roles stA.members
    (memberRoles stA uid) stA s2 hok
  have heq := clearLoop_eq_applyClear sfx uid stA.roles stA.members
    (memberRoles stA uid) stA hlk
  rw [heq] at hok
  have hs2 : s2 = applyClear sfx uid stA.roles stA.members
      (memberRoles stA uid) stA :=
    (congrArg Prod.fst hok).symm
  subst hs2
  exact ⟨applyClear_roles_sublist _ _ _ _ _ _,
    applyClear_deletes sfx uid stA.roles stA.members hres hends hemp _ _ hmem⟩

/-- C8: running the full invocation (Clearing then Assigning) twice in
a row with the single tag `t`, starting from a guild with no role named
like `t`'s tag-role, leaves exactly one role with that name in the
guild — no duplicate is ever created, even though the second
invocation's Clearing removes (and, being sole holder, deletes) the
role before its Assigning recreates it. -/
theorem claim_C8 (k : CharKind) (uid : Nat) (t : Str)
    (st st2 st4 : GuildState)
    (hN : (st.roles.map RoleR.id).Nodup)
    (hF : ∀ r ∈ st.roles, r.id < st.nextId)
    (hFm : ∀ m ∈ st.members, ∀ x ∈ m.roles, x < st.nextId)
    (hNoRole : ∀ r ∈ st.roles, r.name ≠ roleNameFor t k.pfix)
    (hE : (st.members.find? (fun m => m.userId == uid)).isSome = true)
    (hrun1 : handler_for_kind k uid [t] st = (st2, none))
    (hrun2 : handler_for_kind k uid [t] st2 = (st4, none)) :
    (st4.roles.filter (fun r => r.name == roleNameFor t k.pfix)).length = 1 := by
  unfold handler_for_kind handlerCore at hrun1
  rcases hc1 : clearCore k.pfix uid st with ⟨s1, e1⟩
  rw [hc1] at hrun1
  cases e1 with
  | some e => simp at hrun1
  | none =>
  dsimp only at hrun1
  have hst2 : st2 = assignCore k.pfix k.colour uid [t] s1 :=
    (congrArg Prod.fst hrun1).symm
  obtain ⟨hsub1, hnext1, hmsub1, hentry1, hmemw1, hheld1⟩ :=
    clearCore_post k.pfix uid st s1 hN hc1
  have hfind1 : s1.roles.find? (fun r => r.name == roleNameFor t k.pfix) = none := by
    rw [List.find?_eq_none]
    intro r hr
    simp only [beq_iff_eq]
    exact hNoRole r (hsub1.subset hr)
  have hE1 : (s1.members.find? (fun m => m.userId == uid)).isSome = true := by
    rw [hentry1 uid]
    exact hE
  have hMF1 : ∀ x ∈ memberRoles s1 uid, x < s1.nextId := by
    intro x hx
    obtain ⟨r, hr, _, _⟩ := hheld1 x hx
    rw [hnext1, ← (getRole_id hr).2]
    exact hF r (getRole_id hr).1
  have hF1 : ∀ r ∈ s1.roles, r.id < s1.nextId := by
    intro r hr
    rw [hnext1]
    exact hF r (hsub1.subset hr)
  have hst2' : st2 = addMemberRole
      (createRole s1 (roleNameFor t k.pfix) k.colour).1 uid s1.nextId := by
    rw [hst2]
    unfold assignCore
    rw [assignLoop, hfind1]
    dsimp only
    rw [assignLoop]
    rfl
  subst hst2'
  have hrolesA : (addMemberRole (createRole s1 (roleNameFor t k.pfix) k.colour).1
      uid s1.nextId).roles
      = s1.roles ++ [⟨s1.nextId, roleNameFor t k.pfix, k.colour⟩] := rfl
  have hfreshA : getRole (addMemberRole (createRole s1 (roleNameFor t k.pfix)
      k.colour).1 uid s1.nextId).roles s1.nextId
      = some ⟨s1.nextId, roleNameFor t k.pfix, k.colour⟩ := by
    rw [hrolesA, getRole_append_none (getRole_none_of_lt hF1)]
    unfold getRole
    rw [List.find?_cons_of_pos _ (by simp)]
  have hcont1 : (memberRoles s1 uid).contains s1.nextId = false := by
    have hnm : s1.nextId ∉ memberRoles s1 uid := fun hc =>
      Nat.ne_of_lt (hMF1 _ hc) rfl
    simp [hnm]
  have hEc1 : (((createRole s1 (roleNameFor t k.pfix) k.colour).1).members.find?
      (fun m => m.userId == uid)).isSome = true := hE1
  have hMRA : memberRoles (addMemberRole (createRole s1 (roleNameFor t k.pfix)
      k.colour).1 uid s1.nextId) uid = memberRoles s1 uid ++ [s1.nextId] := by
    rw [memberRoles_addMemberRole_self _ _ _ hEc1]
    show (if (memberRoles s1 uid).contains s1.nextId = true
      then memberRoles s1 uid else memberRoles s1 uid ++ [s1.nextId])
        = memberRoles s1 uid ++ [s1.nextId]
    rw [hcont1]
    simp
  have hnidmem : s1.nextId ∈ memberRoles (addMemberRole (createRole s1
      (roleNameFor t k.pfix) k.colour).1 uid s1.nextId) uid := by
    rw [hMRA]
    exact List.mem_append.mpr (Or.inr (List.mem_singleton.mpr rfl))
  have hempA : is_role_empty (addMemberRole (createRole s1 (roleNameFor t k.pfix)
      k.colour).1 uid s1.nextId).members uid s1.nextId = true := by
    unfold is_role_empty
    rw [List.all_eq_true]
    intro m2 hm2
    obtain ⟨m1, hm1, huid, hcases⟩ :=
      members_addMemberRole_cases _ uid s1.nextId m2 hm2
    have hm1' : m1 ∈ s1.members := hm1
    rcases hcases with hroles | ⟨hm1uid, _⟩
    · obtain ⟨m0, hm0, _, hsub0⟩ := hmemw1 m1 hm1'
      have hnotin : s1.nextId ∉ m2.roles := by
        rw [hroles]
        intro hin
        have hlt := hFm m0 hm0 _ (hsub0 hin)
        rw [hnext1] at hlt
        exact Nat.lt_irrefl _ hlt
      simp [hnotin]
    · rw [huid, hm1uid]
      simp
  unfold handler_for_kind handlerCore at hrun2
  rcases hc2 : clearCore k.pfix uid (addMemberRole (createRole s1
      (roleNameFor t k.pfix) k.colour).1 uid s1.nextId) with ⟨s2, e2⟩
  rw [hc2] at hrun2
  cases e2 with
  | some e => simp at hrun2
  | none =>
  dsimp only at hrun2
  have hst4 : st4 = assignCore k.pfix k.colour uid [t] s2 :=
    (congrArg Prod.fst hrun2).symm
  obtain ⟨hsubA, hdelA⟩ := clear_deletes_created k.pfix uid _ s2 hc2 hfreshA
    (endsWithL_roleNameFor t k.pfix) hnidmem hempA
  have hnores2 : ∀ r' ∈ s2.roles, r'.name ≠ roleNameFor t k.pfix := by
    intro r' hr' hname
    have hr'2 := hsubA.subset hr'
    rw [hrolesA] at hr'2
    rcases List.mem_append.mp hr'2 with h | h
    · exact hNoRole r' (hsub1.subset h) hname
    · have h9 : r' = ⟨s1.nextId, roleNameFor t k.pfix, k.colour⟩ :=
        List.mem_singleton.mp h
      exact hdelA r' hr' (by rw [h9])
  have hfind2 : s2.roles.find? (fun r => r.name == roleNameFor t k.pfix) = none := by
    rw [List.find?_eq_none]
    intro r hr
    simp only [beq_iff_eq]
    exact hnores2 r hr
  have hst4' : st4 = addMemberRole
      (createRole s2 (roleNameFor t k.pfix) k.colour).1 uid s2.nextId := by
    rw [hst4]
    unfold assignCore
    rw [assignLoop, hfind2]
    dsimp only
    rw [assignLoop]
    rfl
  subst hst4'
  show ((s2.roles ++ [(⟨s2.nextId, roleNameFor t k.pfix, k.colour⟩ : RoleR)]).filter
    (fun r => r.name == roleNameFor t k.pfix)).length = 1
  rw [List.filter_append]
  have hz : s2.roles.filter (fun r => r.name == roleNameFor t k.pfix) = [] := by
    rw [List.filter_eq_nil_iff]
    intro r hr
    simp only [beq_iff_eq]
    exact hnores2 r hr
  rw [hz, List.nil_append]
  simp [List.filter]

/-- Initial state for the C8 witness: empty guild, one member. -/
def c8St0 : GuildState := ⟨[], [⟨7, []⟩], 0⟩

/-- State after the first C8 invocation. -/
def c8St2 : GuildState :=
  ⟨[⟨0, "Mario  main".toList, 15844367⟩], [⟨7, [0]⟩], 1⟩

/-- State after the second C8 invocation: the role was deleted and
recreated under a fresh id, still exactly one role with the name. -/
def c8St4 : GuildState :=
  ⟨[⟨1, "Mario  main".toList, 15844367⟩], [⟨7, [1]⟩], 2⟩

/-- Witness for C8 at a concrete double invocation. -/
theorem claim_C8_witness :
    ((c8St0.roles.map RoleR.id).Nodup) ∧
    (∀ r ∈ c8St0.roles, r.id < c8St0.nextId) ∧
    (∀ m ∈ c8St0.members, ∀ x ∈ m.roles, x < c8St0.nextId) ∧
    (∀ r ∈ c8St0.roles,
      r.name ≠ roleNameFor "Mario".toList (CharKind.pfix CharKind.Main)) ∧
    ((c8St0.members.find? (fun m => m.userId == 7)).isSome = true) ∧
    handler_for_kind CharKind.Main 7 ["Mario".toList] c8St0 = (c8St2, none) ∧
    handler_for_kind CharKind.Main 7 ["Mario".toList] c8St2 = (c8St4, none) ∧
    (c8St4.roles.filter (fun r => r.name == roleNameFor "Mario".toList
      (CharKind.pfix CharKind.Main))).length = 1 :=
  ⟨by decide, by decide, by decide, by decide, by decide, by decide, by decide,
    claim_C8 CharKind.Main 7 "Mario".toList c8St0 c8St2 c8St4
      (by decide) (by decide) (by decide) (by decide) (by decide)
      (by decide) (by decide)⟩

/-- State for the C7 witness: the member holds role id 5, which is
absent from the guild's role table. -/
def c7WitnessSt : GuildState := ⟨[], [⟨7, [5]⟩], 0⟩

/-- Witness for C7 at a concrete corrupt state. -/
theorem claim_C7_witness :
    (memberRoles c7WitnessSt 7 = [] ++ 5 :: []) ∧
    (getRole c7WitnessSt.roles 5 = none) ∧
    ((CharKind.clear CharKind.Main 7 c7WitnessSt).2 = some Err.corruptState ∧
      CharKind.clear CharKind.Main 7 c7WitnessSt
        = clearLoop (CharKind.pfix CharKind.Main) 7 c7WitnessSt.roles
            c7WitnessSt.members ([] ++ [5]) c7WitnessSt ∧
      handler_for_kind CharKind.Main 7 ["Mario".toList] c7WitnessSt
        = CharKind.clear CharKind.Main 7 c7WitnessSt) :=
  ⟨by decide, by decide,
    claim_C7 CharKind.Main 7 ["Mario".toList] c7WitnessSt 5 [] []
      (by decide) (by decide)⟩
